import Mathlib

/-!
Shallow embedding of the QuestNet layer library (src/layers.py).

Conventions of the embedding:
* Float tensors are modelled over the rationals.  A dense matrix is a list of
  rows (List (List Rat)); a sparse matrix is a list of ((row, col), value)
  entries together with its dense shape.
* The square root used by the TensorFlow op l2_normalize is modelled by the
  exact rational square root Rat.sqrt; it agrees with the real square root
  whenever the radicand is a perfect rational square, which is the case at
  every concrete input evaluated below.
* TensorFlow ops that can fail at run time (segment_sum on unsorted segment
  ids, dynamic_rnn on a sequence_length vector whose size differs from the
  batch size, reshape on a size mismatch) are modelled with Option: none is a
  raised op error.
* Randomness (dropout masks, the uniform samples of sparse_dropout) is passed
  in explicitly, so all functions are deterministic in their arguments.
* The GRU cell used by PathEmbedding is an opaque parameter
  cell : state -> input -> state of the embedding; no claim below depends on
  the concrete gate equations, only on how dynamic_rnn drives the cell.
-/

namespace QuestNet

/-- Entry of a row list, 0 when out of range (used for well-bounded access). -/
def entryD (r : List ℚ) (j : ℕ) : ℚ := r.getD j 0

/-- Row of a matrix, empty when out of range. -/
def rowD (m : List (List ℚ)) (i : ℕ) : List ℚ := m.getD i []

/-- Entry of a matrix, 0 when out of range. -/
def matEntry (m : List (List ℚ)) (i j : ℕ) : ℚ := (m.getD i []).getD j 0

/-- Number of columns a list-of-rows matrix exposes (length of its first row). -/
def colsM (m : List (List ℚ)) : ℕ := (m.headD []).length

/-- Dot product of a row with column j of matrix y:
sum over k of r[k] * y[k][j]. -/
def dotCol (r : List ℚ) (y : List (List ℚ)) (j : ℕ) : ℚ :=
  ((List.range r.length).map (fun k => r.getD k 0 * (y.getD k []).getD j 0)).sum

/-- Dense matrix multiplication, the sparse=False branch of dot
(tf.matmul in src/layers.py). -/
def matMul (x y : List (List ℚ)) : List (List ℚ) :=
  x.map (fun r => (List.range (colsM y)).map (fun j => dotCol r y j))

/-- One sparse-matrix entry: ((row, col), value). -/
abbrev SparseEntry := (ℕ × ℕ) × ℚ

/-- Value at (i, j) of the sparse-times-dense product: the sum over all
stored entries in row i of value * y[col][j]
(tf.sparse_tensor_dense_matmul semantics). -/
def stdmVal (es : List SparseEntry) (y : List (List ℚ)) (i j : ℕ) : ℚ :=
  (es.map (fun e => if e.1.1 = i then e.2 * (y.getD e.1.2 []).getD j 0 else 0)).sum

/-- Sparse-times-dense matrix multiplication, the sparse=True branch of dot
(tf.sparse_tensor_dense_matmul in src/layers.py); r is the dense row count of
the sparse operand. -/
def sparse_tensor_dense_matmul (es : List SparseEntry) (r : ℕ)
    (y : List (List ℚ)) : List (List ℚ) :=
  (List.range r).map (fun i => (List.range (colsM y)).map (fun j => stdmVal es y i j))

/-- A tensor argument of dot: either dense or sparse (entries with dense shape). -/
inductive TfTensor where
  | dense : List (List ℚ) → TfTensor
  | sparse : List SparseEntry → ℕ → ℕ → TfTensor

/-- Wrapper for tf.matmul (sparse vs dense), src/layers.py dot.
Passing a tensor of the wrong kind for the flag is a graph-build type error,
modelled as none. -/
def dot (x : TfTensor) (y : List (List ℚ)) (sparse : Bool) :
    Option (List (List ℚ)) :=
  match sparse, x with
  | true, .sparse es r _ => some (sparse_tensor_dense_matmul es r y)
  | false, .dense m => some (matMul m y)
  | _, _ => none

/-- Value at (i, k) of the densified sparse matrix: sum of all stored values
at index (i, k) (duplicate indices accumulate). -/
def densifyE (es : List SparseEntry) (i k : ℕ) : ℚ :=
  (es.map (fun e => if e.1 = (i, k) then e.2 else 0)).sum

/-- Dense r-by-c matrix holding the same logical matrix as the sparse entry
list es. -/
def densify (es : List SparseEntry) (r c : ℕ) : List (List ℚ) :=
  (List.range r).map (fun i => (List.range c).map (fun k => densifyE es i k))

/-- Dropout for sparse tensors, src/layers.py sparse_dropout.
The tensor is the list of (index, value) nonzero entries; us is the list of
uniform samples drawn by tf.random_uniform (one per entry, noise_shape is the
nonzero count).  An entry is retained when floor(keep_prob + u) cast to bool
is true, i.e. nonzero; retained entries are scaled by 1 / keep_prob. -/
def sparse_dropout (x : List SparseEntry) (keep_prob : ℚ) (us : List ℚ) :
    List SparseEntry :=
  ((x.zip us).filter (fun p => ⌊keep_prob + p.2⌋ ≠ 0)).map
    (fun p => (p.1.1, p.1.2 * (1 / keep_prob)))

/-- Dense inverted dropout, tf.nn.dropout with an explicit retention mask:
retained entries are scaled by 1 / keep_prob, dropped entries become 0. -/
def denseDropout (mask : List (List Bool)) (keep_prob : ℚ)
    (x : List (List ℚ)) : List (List ℚ) :=
  (x.zip mask).map (fun rm =>
    (rm.1.zip rm.2).map (fun vb => if vb.2 then vb.1 * (1 / keep_prob) else 0))

/-- Global sum of squares of all entries, reduce_sum(square(x)) over all axes. -/
def sumSq (m : List (List ℚ)) : ℚ :=
  (m.map (fun r => (r.map (fun v => v * v)).sum)).sum

/-- tf.math.l2_normalize with its default axis=None as called in
PathEmbedding._call: every entry is divided by the square root of the GLOBAL
sum of squares over the whole tensor. -/
def l2NormalizeAll (m : List (List ℚ)) : List (List ℚ) :=
  m.map (fun r => r.map (fun v => v / Rat.sqrt (sumSq m)))

/-- Row-wise L2 normalization as the specification describes it: each row is
divided by that row's own Euclidean norm.  Stated from the spec only, for
comparison with l2NormalizeAll. -/
def l2NormalizeRows (m : List (List ℚ)) : List (List ℚ) :=
  m.map (fun r => r.map (fun v => v / Rat.sqrt ((r.map (fun w => w * w)).sum)))

/-- Largest element of a list of naturals (0 for the empty list),
tf.reduce_max on a nonnegative integer tensor. -/
def maxL (l : List ℕ) : ℕ := l.foldr Nat.max 0

/-- Nondecreasing test on a list of naturals. -/
def sortedLe : List ℕ → Bool
  | [] => true
  | [_] => true
  | a :: b :: t => a ≤ b && sortedLe (b :: t)

/-- tf.math.segment_sum applied to ones_like(ids) with segment ids:
requires the segment ids sorted (nondecreasing), a runtime op error (none)
otherwise; the output has last-id + 1 entries, entry p being the number of
occurrences of p among the ids. -/
def segmentSumOnes (ids : List ℕ) : Option (List ℕ) :=
  if sortedLe ids then
    some ((List.range (if ids.isEmpty then 0 else maxL ids + 1)).map
      (fun p => ids.count p))
  else none

/-- Elementwise sum of two vectors (same length in every use below). -/
def vecAdd (a b : List ℚ) : List ℚ := List.zipWith (· + ·) a b

/-- tf.scatter_nd into a zero tensor of shape [d1, d2, dim]: slot (p, t)
receives the sum of all update rows whose 2-d index equals (p, t) (duplicate
indices accumulate); unwritten slots stay the zero vector. -/
def scatter_nd (ids : List (ℕ × ℕ)) (upds : List (List ℚ)) (d1 d2 dim : ℕ) :
    List (List (List ℚ)) :=
  (List.range d1).map (fun p => (List.range d2).map (fun t =>
    ((ids.zip upds).filter (fun e => e.1 = (p, t))).foldl
      (fun acc u => vecAdd acc u.2) (List.replicate dim 0)))

/-- A recurrent cell: old state and one input row give the new state.  The
GRUCell of PathEmbedding is one instance; the claims below hold for any cell,
so it stays abstract. -/
abbrev RnnCell := List ℚ → List ℚ → List ℚ

/-- tf.nn.dynamic_rnn with an explicit sequence_length: batch entry b runs
the cell over the first lens[b] rows of its padded input block starting from
its initial state, and its state is frozen beyond that length, so its final
state is the fold of the cell over exactly lens[b] rows.  The op asserts at
run time that sequence_length and initial_state have one entry per batch row;
a mismatch is an op error (none). -/
def dynamicRnn (cell : RnnCell) (xs : List (List (List ℚ)))
    (init : List (List ℚ)) (lens : List ℕ) : Option (List (List ℚ)) :=
  if lens.length = xs.length ∧ init.length = xs.length then
    some ((xs.zip (init.zip lens)).map
      (fun b => (b.1.take b.2.2).foldl cell b.2.1))
  else none

/-- Configuration and placeholders of a PathEmbedding layer: counts, the
path-index structure (paths, idx, seqs) and the per-path initial states
flow_size. -/
structure PEConfig where
  num_quests : ℕ
  num_paths : ℕ
  link_state_dim : ℕ
  paths : List ℕ
  idx : List ℕ
  seqs : List ℕ
  flow_size : List ℚ

/-- The reshape of flow_size to [num_quests*num_paths, 1] done in
PathEmbedding.__init__; a size mismatch is a graph-build error (none). -/
def reshapeFlow (cfg : PEConfig) : Option (List (List ℚ)) :=
  if cfg.flow_size.length = cfg.num_quests * cfg.num_paths then
    some (cfg.flow_size.map (fun v => [v]))
  else none

/-- PathEmbedding._call after the initial l2_normalize, on the already
normalized link embeddings: gather the per-step rows, build the padded
[num_quests*num_paths, max(seqs)+1, link_state_dim] tensor by scatter_nd,
compute per-path lengths by segment_sum, and run dynamic_rnn from the
reshaped flow_size initial states.  Returns the flat list of the
num_quests*num_paths final states. -/
def pathEmbeddingAfterNorm (cfg : PEConfig) (cell : RnnCell)
    (normed : List (List ℚ)) : Option (List (List ℚ)) :=
  let h_tild := cfg.paths.map (fun i => normed.getD i [])
  let ids := cfg.idx.zip cfg.seqs
  let max_len := maxL cfg.seqs + 1
  match segmentSumOnes cfg.idx, reshapeFlow cfg with
  | some lens, some init =>
      dynamicRnn cell
        (scatter_nd ids h_tild (cfg.num_quests * cfg.num_paths) max_len
          cfg.link_state_dim)
        init lens
  | _, _ => none

/-- PathEmbedding._call up to (and excluding) the final [num_quests,
num_paths] reshape: l2-normalize the link embeddings with the global norm,
then run the gather / scatter / recurrence pipeline. -/
def pathEmbeddingStates (cfg : PEConfig) (cell : RnnCell)
    (inputs : List (List ℚ)) : Option (List (List ℚ)) :=
  pathEmbeddingAfterNorm cfg cell (l2NormalizeAll inputs)

/-- Configuration of a GraphConvolution layer: its parameters (weights and
optional bias), the support matrix and the featureless flag. -/
structure GCConfig where
  weights : List (List ℚ)
  bias : Option (List ℚ)
  support : List (List ℚ)
  featureless : Bool

/-- Row-broadcast bias addition, output += bias in GraphConvolution._call. -/
def addBias (m : List (List ℚ)) (b : Option (List ℚ)) : List (List ℚ) :=
  match b with
  | some bv => m.map (fun r => List.zipWith (· + ·) r bv)
  | none => m

/-- GraphConvolution._call: dense dropout on the input, then
pre_sup = x_dropped * weights (or the weights themselves when featureless),
one propagation hop support * pre_sup, optional bias, activation.  The
dropout mask and keep probability are explicit; act is applied entrywise. -/
def graphConvolutionCall (cfg : GCConfig) (act : ℚ → ℚ)
    (mask : List (List Bool)) (keep_prob : ℚ) (x : List (List ℚ)) :
    List (List ℚ) :=
  let xd := denseDropout mask keep_prob x
  let pre_sup := if cfg.featureless then cfg.weights else matMul xd cfg.weights
  let output := addBias (matMul cfg.support pre_sup) cfg.bias
  output.map (fun r => r.map act)

/-- A keyword-argument value: a string (for name) or a boolean (for the
logging flag). -/
inductive KwVal where
  | s : String → KwVal
  | b : Bool → KwVal
deriving DecidableEq

/-- Keyword arguments in insertion order, as a python call site passes them. -/
abbrev KwArgs := List (String × KwVal)

/-- The keys Layer.__init__ accepts. -/
def allowed_kwargs : List String := ["name", "logging"]

/-- kwargs.get(k): the value of the first binding of k, if any. -/
def kwGet (kwargs : KwArgs) (k : String) : Option KwVal :=
  (kwargs.find? (fun p => p.1 = k)).map (fun p => p.2)

/-- The process-wide _LAYER_UIDS dictionary, as a total map with 0 encoding
a missing key (every stored counter is at least 1). -/
abbrev UidState := String → ℕ

/-- The empty dictionary at process start. -/
def emptyUids : UidState := fun _ => 0

/-- get_layer_uid: first call for a tag stores and returns 1; each later call
increments the stored counter and returns the new value.  Returns the value
and the updated dictionary. -/
def get_layer_uid (layer_name : String) (st : UidState) : ℕ × UidState :=
  if st layer_name = 0 then
    (1, fun t => if t = layer_name then 1 else st t)
  else
    (st layer_name + 1, fun t => if t = layer_name then st layer_name + 1 else st t)

/-- Dictionary after n successive get_layer_uid calls for the same tag. -/
def uidStateAfter (tag : String) (st : UidState) : ℕ → UidState
  | 0 => st
  | n + 1 => (get_layer_uid tag (uidStateAfter tag st n)).2

/-- Value returned by call number n+1 (0-indexed n) for a tag, starting from
dictionary st. -/
def uidReturned (tag : String) (st : UidState) (n : ℕ) : ℕ :=
  (get_layer_uid tag (uidStateAfter tag st n)).1

/-- The observable outcome of Layer.__init__: the chosen layer name and the
logging flag. -/
structure LayerObj where
  name : String
  logging : Bool
deriving DecidableEq

/-- Layer.__init__ for a class named cls: every kwarg key must be name or
logging, the first offending key raises an assertion error naming it; an
absent or empty name kwarg (python falsy) is replaced by the default
lowercased-class + underscore + fresh uid name.  Returns the layer object and
the updated uid dictionary. -/
def layer_init (cls : String) (kwargs : KwArgs) (st : UidState) :
    Except String (LayerObj × UidState) :=
  match kwargs.find? (fun p => ¬ (p.1 ∈ allowed_kwargs)) with
  | some p => .error ("Invalid keyword argument: " ++ p.1)
  | none =>
      let lower := cls.toLower
      let logging := match kwGet kwargs "logging" with
        | some (.b v) => v
        | _ => false
      match kwGet kwargs "name" with
      | some (.s v) =>
          if v = "" then
            let r := get_layer_uid lower st
            .ok ({ name := lower ++ "_" ++ toString r.1, logging := logging }, r.2)
          else
            .ok ({ name := v, logging := logging }, st)
      | _ =>
          let r := get_layer_uid lower st
          .ok ({ name := lower ++ "_" ++ toString r.1, logging := logging }, r.2)

/-! ## Helper lemmas -/

theorem getD_map_zero (f : ℚ → ℚ) (hf : f 0 = 0) (l : List ℚ) (j : ℕ) :
    (l.map f).getD j 0 = f (l.getD j 0) := by
  calc (l.map f).getD j 0 = (l.map f).getD j (f 0) := by rw [hf]
    _ = f (l.getD j 0) := List.getD_map l 0 f

theorem matEntry_map (f : ℚ → ℚ) (hf : f 0 = 0) (m : List (List ℚ)) (i j : ℕ) :
    matEntry (m.map (fun r => r.map f)) i j = f (matEntry m i j) := by
  unfold matEntry
  have h1 : (m.map (fun r => r.map f)).getD i [] = (m.getD i []).map f :=
    List.getD_map m [] (fun r => r.map f)
  rw [h1]
  exact getD_map_zero f hf _ j

theorem ratSqrt_of_sq {c s : ℚ} (hc : 0 ≤ c) (h : c * c = s) : Rat.sqrt s = c := by
  rw [← h, Rat.sqrt_eq, abs_of_nonneg hc]

theorem le_maxL {l : List ℕ} {e : ℕ} (he : e ∈ l) : e ≤ maxL l := by
  induction l with
  | nil => cases he
  | cons a t ih =>
      rcases List.mem_cons.mp he with rfl | ht
      · exact Nat.le_max_left _ _
      · exact le_trans (ih ht) (Nat.le_max_right _ _)

theorem listSum_range {M : Type} [AddCommMonoid M] (f : ℕ → M) (n : ℕ) :
    ((List.range n).map f).sum = ∑ k ∈ Finset.range n, f k := by
  induction n with
  | zero => simp
  | succ n ih => rw [List.range_succ]; simp [ih, Finset.sum_range_succ]

theorem count_sum_range {idx : List ℕ} {n : ℕ} (h : ∀ e ∈ idx, e < n) :
    ∑ p ∈ Finset.range n, idx.count p = idx.length := by
  induction idx with
  | nil => simp
  | cons e tl ih =>
      have he : e ∈ Finset.range n := Finset.mem_range.mpr (h e (List.mem_cons_self _ _))
      have htl : ∀ x ∈ tl, x < n := fun x hx => h x (List.mem_cons_of_mem _ hx)
      simp only [List.count_cons, beq_iff_eq, List.length_cons]
      rw [Finset.sum_add_distrib, ih htl]
      have hone : (∑ p ∈ Finset.range n, if e = p then 1 else 0) = 1 := by
        rw [Finset.sum_ite_eq (Finset.range n) e (fun _ => 1)]
        simp [he]
      rw [hone]

/-! ## C1: the first stage of PathEmbedding._call.
The spec claims a row-wise L2 normalization; the code calls
tf.math.l2_normalize with its default axis=None, which divides every entry by
the Euclidean norm of the whole tensor. -/

/-- C1 counterexample: on the input [[3,4],[0,12]], the normalization stage
actually used by PathEmbedding._call divides by the global norm 13, while
the row-wise normalization the claim describes would divide row 0 by 5 and
row 1 by 12; the two results differ. -/
theorem l2_normalize_not_rowwise_counterexample :
    l2NormalizeAll [[3, 4], [0, 12]] = [[3/13, 4/13], [0, 12/13]] ∧
    l2NormalizeRows [[3, 4], [0, 12]] = [[3/5, 4/5], [0, 1]] ∧
    l2NormalizeAll [[3, 4], [0, 12]] ≠ l2NormalizeRows [[3, 4], [0, 12]] := by
  have h13 : Rat.sqrt (sumSq [[3, 4], [0, 12]]) = 13 :=
    ratSqrt_of_sq (by norm_num) (by norm_num [sumSq])
  have h25 : Rat.sqrt (25 : ℚ) = 5 := ratSqrt_of_sq (by norm_num) (by norm_num)
  have h144 : Rat.sqrt (144 : ℚ) = 12 := ratSqrt_of_sq (by norm_num) (by norm_num)
  have hall : l2NormalizeAll [[3, 4], [0, 12]] = [[3/13, 4/13], [0, 12/13]] := by
    simp [l2NormalizeAll, h13]
  have hrows : l2NormalizeRows [[3, 4], [0, 12]] = [[3/5, 4/5], [0, 1]] := by
    simp only [l2NormalizeRows, List.map_cons, List.map_nil, List.sum_cons,
      List.sum_nil]
    norm_num [h25, h144]
  refine ⟨hall, hrows, ?_⟩
  rw [hall, hrows]
  norm_num

/-- C1 amended: PathEmbedding._call first normalizes the link embeddings by
the GLOBAL L2 norm (tf.math.l2_normalize with axis=None) before any gather,
scatter or recurrence: every entry of the normalized tensor is the
corresponding input entry divided by the Euclidean norm of the entire
tensor (here written as any nonnegative c whose square is the global sum of
squares). -/
theorem l2_normalize_divides_by_global_norm (m : List (List ℚ)) (c : ℚ)
    (hc : 0 ≤ c) (h : c * c = sumSq m) :
    (∀ cfg cell inputs, pathEmbeddingStates cfg cell inputs =
      pathEmbeddingAfterNorm cfg cell (l2NormalizeAll inputs)) ∧
    (∀ i j, matEntry (l2NormalizeAll m) i j = matEntry m i j / c) := by
  constructor
  · intro cfg cell inputs; rfl
  · intro i j
    have hs : Rat.sqrt (sumSq m) = c := ratSqrt_of_sq hc h
    simp only [l2NormalizeAll, hs]
    exact matEntry_map (fun v => v / c) (zero_div c) m i j

/-- C1 witness: the amended statement evaluated on [[3,4],[0,12]] with global
norm 13, at entry (1,1). -/
theorem l2_normalize_divides_by_global_norm_witness :
    matEntry (l2NormalizeAll [[3, 4], [0, 12]]) 1 1 =
      matEntry [[3, 4], [0, 12]] 1 1 / 13 :=
  (l2_normalize_divides_by_global_norm [[3, 4], [0, 12]] 13 (by norm_num)
    (by norm_num [sumSq])).2 1 1

/-! ## C3: featureless GraphConvolution ignores its input -/

/-- C3: a GraphConvolution with featureless=True computes
activation(support * weights + bias) for EVERY feature input, dropout mask
and keep probability: the right-hand side mentions none of them, so the
output does not depend on the input in any way. -/
theorem graphConvolution_featureless_independent (cfg : GCConfig)
    (act : ℚ → ℚ) (h : cfg.featureless = true) :
    ∀ mask keep_prob x, graphConvolutionCall cfg act mask keep_prob x =
      (addBias (matMul cfg.support cfg.weights) cfg.bias).map
        (fun r => r.map act) := by
  intro mask keep_prob x
  simp [graphConvolutionCall, h]

/-- C3 witness: a concrete featureless layer with support [[2],[3]],
weights [[5, 7]], no bias and identity activation gives the same value on
two unrelated inputs and masks, namely act(S*W). -/
theorem graphConvolution_featureless_independent_witness :
    graphConvolutionCall ⟨[[5, 7]], none, [[2], [3]], true⟩ id [[true]] 1 [[99]] =
      (addBias (matMul [[2], [3]] [[5, 7]]) none).map (fun r => r.map id) ∧
    graphConvolutionCall ⟨[[5, 7]], none, [[2], [3]], true⟩ id [] (1/2) [[4, 4]] =
      (addBias (matMul [[2], [3]] [[5, 7]]) none).map (fun r => r.map id) :=
  ⟨graphConvolution_featureless_independent ⟨[[5, 7]], none, [[2], [3]], true⟩
      id rfl [[true]] 1 [[99]],
    graphConvolution_featureless_independent ⟨[[5, 7]], none, [[2], [3]], true⟩
      id rfl [] (1/2) [[4, 4]]⟩

/-! ## C4: per-path lengths computed by segment_sum -/

/-- C4: whenever the segment-sum of ones over idx succeeds and yields lens,
entry p of lens is the number of steps i with idx[i] = p, for every p that
lens covers, and the entries of lens sum to the number of steps. -/
theorem segment_sum_lens_spec (idx lens : List ℕ)
    (h : segmentSumOnes idx = some lens) :
    (∀ p, p < lens.length → lens.getD p 0 = idx.count p) ∧
    lens.sum = idx.length := by
  have hsorted : sortedLe idx = true := by
    by_contra hs
    rw [segmentSumOnes, if_neg hs] at h
    exact Option.noConfusion h
  rw [segmentSumOnes, if_pos hsorted] at h
  have hlens : lens = (List.range (if idx.isEmpty then 0 else maxL idx + 1)).map
      (fun p => idx.count p) := (Option.some.injEq _ _ ▸ h).symm
  constructor
  · intro p hp
    subst hlens
    rw [List.length_map, List.length_range] at hp
    rw [List.getD_eq_getElem _ _ (by simpa using hp)]
    simp
  · subst hlens
    cases hidx : idx with
    | nil => simp
    | cons a t =>
        have hne : (idx.isEmpty) = false := by simp [hidx]
        rw [← hidx]
        rw [hne]
        simp only [Bool.false_eq_true, if_false]
        rw [listSum_range]
        exact count_sum_range (fun e he => Nat.lt_succ_of_le (le_maxL he))

/-! ## C4 witness and C6: the lens vector is shorter than the batch -/

/-- C4 witness: idx = [0,0,1] yields lens = [2,1]; entry 0 counts the two
steps of path 0 and the entries sum to the number of steps. -/
theorem segment_sum_lens_spec_witness :
    (([2, 1] : List ℕ).getD 0 0 = List.count 0 [0, 0, 1]) ∧
    ([2, 1] : List ℕ).sum = ([0, 0, 1] : List ℕ).length :=
  ⟨(segment_sum_lens_spec [0, 0, 1] [2, 1] (by decide)).1 0 (by decide),
    (segment_sum_lens_spec [0, 0, 1] [2, 1] (by decide)).2⟩

/-- Helper: when the largest occurring path id plus one differs from the
recurrent batch size num_quests*num_paths, the forward pass of PathEmbedding
errors out at the dynamic_rnn shape assertion. -/
theorem pathEmbedding_fails_of_short_lens (cfg : PEConfig) (cell : RnnCell)
    (inputs : List (List ℚ)) (hsort : sortedLe cfg.idx = true)
    (hne : cfg.idx ≠ [])
    (hmax : maxL cfg.idx + 1 ≠ cfg.num_quests * cfg.num_paths) :
    pathEmbeddingStates cfg cell inputs = none := by
  simp only [pathEmbeddingStates, pathEmbeddingAfterNorm]
  rw [segmentSumOnes, if_pos hsort]
  rcases hrf : reshapeFlow cfg with _ | init
  · rfl
  · have hempty : cfg.idx.isEmpty = false := by simp [List.isEmpty_iff, hne]
    dsimp only
    rw [dynamicRnn, if_neg]
    intro hcond
    apply hmax
    have h1 := hcond.1
    rw [List.length_map, List.length_range, hempty] at h1
    simpa [scatter_nd] using h1

/-- C6: the lens vector built by segment_sum has max(idx)+1 entries, not
num_quests*num_paths of them; consequently whenever the highest-numbered
paths have no steps (max(idx)+1 differs from the batch size), the recurrent
batch and sequence_length disagree and PathEmbedding._call fails at the
dynamic_rnn run-time shape assertion instead of returning any state. -/
theorem lens_length_max_idx :
    (∀ idx lens, segmentSumOnes idx = some lens → idx ≠ [] →
      lens.length = maxL idx + 1) ∧
    (∀ cfg cell inputs, sortedLe cfg.idx = true → cfg.idx ≠ [] →
      maxL cfg.idx + 1 ≠ cfg.num_quests * cfg.num_paths →
      pathEmbeddingStates cfg cell inputs = none) := by
  have hlen : ∀ idx lens, segmentSumOnes idx = some lens → idx ≠ [] →
      lens.length = maxL idx + 1 := by
    intro idx lens h hne
    by_cases hs : sortedLe idx = true
    · rw [segmentSumOnes, if_pos hs] at h
      have hlens := (Option.some.injEq _ _ ▸ h)
      rw [← hlens, List.length_map, List.length_range]
      simp [List.isEmpty_iff, hne]
    · rw [segmentSumOnes, if_neg hs] at h
      exact Option.noConfusion h
  exact ⟨hlen, pathEmbedding_fails_of_short_lens⟩

/-- C6 witness: idx = [0,0,1] gives a lens of length max(idx)+1 = 2; with a
batch of num_quests*num_paths = 3 paths (path 2 empty), the forward pass
fails. -/
theorem lens_length_max_idx_witness :
    ([2, 1] : List ℕ).length = maxL [0, 0, 1] + 1 ∧
    pathEmbeddingStates ⟨1, 3, 1, [0, 1, 2], [0, 0, 1], [0, 1, 0], [5, 7, 9]⟩
      (fun s _ => s) [[1]] = none :=
  ⟨lens_length_max_idx.1 [0, 0, 1] [2, 1] (by decide) (by decide),
    lens_length_max_idx.2 ⟨1, 3, 1, [0, 1, 2], [0, 0, 1], [0, 1, 0], [5, 7, 9]⟩
      (fun s _ => s) [[1]] (by decide) (by decide) (by decide)⟩

/-! ## C2: a zero-length path keeps its initial state -/

/-- C2 counterexample to the claim as stated: the valid path-index structure
with num_quests*num_paths = 2, paths = [0], idx = [0], seqs = [0],
flow_size = [5, 7] leaves path 1 with zero steps, yet the forward pass does
not return flow_size[1] for it: dynamic_rnn raises a shape error (none),
because the lens vector only covers path ids up to max(idx). -/
theorem path_zero_len_counterexample :
    pathEmbeddingStates ⟨1, 2, 1, [0], [0], [0], [5, 7]⟩
      (fun s _ => s) [[1]] = none ∧
    List.count 1 [0] = 0 ∧ (1 : ℕ) < 1 * 2 := by
  refine ⟨?_, by decide, by decide⟩
  exact pathEmbedding_fails_of_short_lens ⟨1, 2, 1, [0], [0], [0], [5, 7]⟩
    (fun s _ => s) [[1]] (by decide) (by decide) (by decide)

/-- Helper: dynamic_rnn on a batch entry p with sequence length 0 returns
that entry's initial state untouched, for any cell. -/
theorem dynamicRnn_zero_len (cell : RnnCell) (xs : List (List (List ℚ)))
    (init : List (List ℚ)) (lens : List ℕ) (p : ℕ)
    (hx : lens.length = xs.length) (hi : init.length = xs.length)
    (hp : p < xs.length) (h0 : lens.getD p 0 = 0) :
    ∃ sts, dynamicRnn cell xs init lens = some sts ∧
      sts.getD p [] = init.getD p [] := by
  rw [dynamicRnn, if_pos ⟨hx, hi⟩]
  refine ⟨_, rfl, ?_⟩
  have hplt : p < ((xs.zip (init.zip lens)).map
      (fun b => (b.1.take b.2.2).foldl cell b.2.1)).length := by
    rw [List.length_map, List.length_zip, List.length_zip, hx, hi]
    omega
  have hlp : p < lens.length := by omega
  rw [List.getD_eq_getElem _ _ hplt, List.getElem_map, List.getElem_zip,
    List.getElem_zip]
  rw [List.getD_eq_getElem _ _ hlp] at h0
  rw [h0]
  simp only [List.take_zero, List.foldl_nil]
  rw [List.getD_eq_getElem _ _ (by omega : p < init.length)]

/-- C2 amended: for every valid path-index structure whose lens vector covers
the whole recurrent batch (the largest occurring path id is the last path,
max(idx)+1 = num_quests*num_paths) and whose flow_size has one entry per
path, every path p with zero steps (lens[p] = 0, i.e. no i has idx[i] = p)
gets back exactly its unmodified initial state flow_size[p]: the recurrent
cell performs zero steps for it, whatever the cell computes. -/
theorem path_zero_len_keeps_initial_state (cfg : PEConfig) (cell : RnnCell)
    (inputs : List (List ℚ)) (p : ℕ)
    (hsort : sortedLe cfg.idx = true)
    (hne : cfg.idx ≠ [])
    (hcover : maxL cfg.idx + 1 = cfg.num_quests * cfg.num_paths)
    (hflow : cfg.flow_size.length = cfg.num_quests * cfg.num_paths)
    (hp : p < cfg.num_quests * cfg.num_paths)
    (hzero : cfg.idx.count p = 0) :
    ∃ sts, pathEmbeddingStates cfg cell inputs = some sts ∧
      sts.getD p [] = [cfg.flow_size.getD p 0] := by
  have hempty : cfg.idx.isEmpty = false := by simp [List.isEmpty_iff, hne]
  have hsome : pathEmbeddingStates cfg cell inputs =
      dynamicRnn cell
        (scatter_nd (cfg.idx.zip cfg.seqs)
          (cfg.paths.map (fun i => (l2NormalizeAll inputs).getD i []))
          (cfg.num_quests * cfg.num_paths) (maxL cfg.seqs + 1)
          cfg.link_state_dim)
        (cfg.flow_size.map (fun v => [v]))
        ((List.range (if cfg.idx.isEmpty then 0 else maxL cfg.idx + 1)).map
          (fun q => cfg.idx.count q)) := by
    simp only [pathEmbeddingStates, pathEmbeddingAfterNorm]
    rw [segmentSumOnes, if_pos hsort, reshapeFlow, if_pos hflow]
  have hxslen : (scatter_nd (cfg.idx.zip cfg.seqs)
      (cfg.paths.map (fun i => (l2NormalizeAll inputs).getD i []))
      (cfg.num_quests * cfg.num_paths) (maxL cfg.seqs + 1)
      cfg.link_state_dim).length = cfg.num_quests * cfg.num_paths := by
    rw [scatter_nd, List.length_map, List.length_range]
  have hlenslen : ((List.range (if cfg.idx.isEmpty then 0
      else maxL cfg.idx + 1)).map (fun q => cfg.idx.count q)).length =
      cfg.num_quests * cfg.num_paths := by
    rw [List.length_map, List.length_range, hempty]
    simpa using hcover
  have h0 : ((List.range (if cfg.idx.isEmpty then 0
      else maxL cfg.idx + 1)).map (fun q => cfg.idx.count q)).getD p 0 = 0 := by
    rw [List.getD_eq_getElem _ _ (by rw [hlenslen]; exact hp),
      List.getElem_map, List.getElem_range]
    exact hzero
  rw [hsome]
  obtain ⟨sts, h1, h2⟩ := dynamicRnn_zero_len cell
    (scatter_nd (cfg.idx.zip cfg.seqs)
      (cfg.paths.map (fun i => (l2NormalizeAll inputs).getD i []))
      (cfg.num_quests * cfg.num_paths) (maxL cfg.seqs + 1) cfg.link_state_dim)
    (cfg.flow_size.map (fun v => [v]))
    ((List.range (if cfg.idx.isEmpty then 0 else maxL cfg.idx + 1)).map
      (fun q => cfg.idx.count q)) p
    (by rw [hlenslen, hxslen]) (by rw [List.length_map, hflow, hxslen])
    (by rw [hxslen]; exact hp) h0
  refine ⟨sts, h1, ?_⟩
  rw [h2, List.getD_eq_getElem _ _ (by rw [List.length_map, hflow]; exact hp),
    List.getElem_map, List.getD_eq_getElem _ _ (by rw [hflow]; exact hp)]

/-- C2 witness: num_quests = 1, num_paths = 3, idx = [0,0,2] (path 1 empty,
path 2 the largest id so lens covers the batch), flow_size = [5,7,9]: the
forward pass succeeds and path 1 keeps its initial state 7, here with a
concrete cell. -/
theorem path_zero_len_keeps_initial_state_witness :
    ∃ sts, pathEmbeddingStates ⟨1, 3, 1, [0, 1, 2], [0, 0, 2], [0, 1, 0], [5, 7, 9]⟩
      (fun s _ => s) [[1]] = some sts ∧ sts.getD 1 [] = [7] := by
  have h := path_zero_len_keeps_initial_state
    ⟨1, 3, 1, [0, 1, 2], [0, 0, 2], [0, 1, 0], [5, 7, 9]⟩ (fun s _ => s) [[1]] 1
    (by decide) (by decide) (by decide) (by decide) (by decide) (by decide)
  simpa using h

/-! ## C5: GraphConvolution output shape -/

theorem length_matMul (x y : List (List ℚ)) : (matMul x y).length = x.length := by
  simp [matMul]

theorem length_mem_matMul (x y : List (List ℚ)) {r : List ℚ}
    (hr : r ∈ matMul x y) : r.length = colsM y := by
  simp only [matMul, List.mem_map] at hr
  obtain ⟨a, _, rfl⟩ := hr
  simp

theorem colsM_matMul_of_ne {x : List (List ℚ)} (y : List (List ℚ))
    (h : x ≠ []) : colsM (matMul x y) = colsM y := by
  cases x with
  | nil => exact absurd rfl h
  | cons a t => simp [matMul, colsM]

theorem colsM_of_forall {m : List (List ℚ)} {k : ℕ} (hm : m ≠ [])
    (h : ∀ r ∈ m, r.length = k) : colsM m = k := by
  cases m with
  | nil => exact absurd rfl hm
  | cons a t => exact h a (List.mem_cons_self _ _)

theorem length_denseDropout (mask : List (List Bool)) (keep_prob : ℚ)
    (x : List (List ℚ)) :
    (denseDropout mask keep_prob x).length = min x.length mask.length := by
  simp [denseDropout]

/-- C5: for every input X of shape [n, input_dim] (n, input_dim positive so
that the list model carries well-defined column counts), a GraphConvolution
whose weights are [input_dim, output_dim] and whose optional bias has
output_dim entries produces an output of shape
[rows(support), output_dim]; the output is a pure function of the input, the
parameters, the support and the explicit dropout mask, hence deterministic
once the mask is fixed. -/
theorem graphConvolution_output_shape (cfg : GCConfig) (act : ℚ → ℚ)
    (mask : List (List Bool)) (keep_prob : ℚ) (x : List (List ℚ))
    (n input_dim output_dim : ℕ)
    (hn : 0 < n) (hind : 0 < input_dim)
    (hx : x.length = n) (hxr : ∀ r ∈ x, r.length = input_dim)
    (hm : mask.length = n) (hmr : ∀ r ∈ mask, r.length = input_dim)
    (hW : cfg.weights.length = input_dim)
    (hWr : ∀ r ∈ cfg.weights, r.length = output_dim)
    (hb : ∀ bv, cfg.bias = some bv → bv.length = output_dim) :
    (graphConvolutionCall cfg act mask keep_prob x).length =
      cfg.support.length ∧
    ∀ r ∈ graphConvolutionCall cfg act mask keep_prob x,
      r.length = output_dim := by
  have hWne : cfg.weights ≠ [] := by
    intro hcontra
    rw [hcontra] at hW
    simp at hW
    omega
  have hcolsW : colsM cfg.weights = output_dim := colsM_of_forall hWne hWr
  have hpre : colsM (if cfg.featureless then cfg.weights
      else matMul (denseDropout mask keep_prob x) cfg.weights) = output_dim := by
    cases hf : cfg.featureless with
    | true => simpa using hcolsW
    | false =>
        simp only [Bool.false_eq_true, if_false]
        have hxd : denseDropout mask keep_prob x ≠ [] := by
          intro hcontra
          have := length_denseDropout mask keep_prob x
          rw [hcontra] at this
          simp [hx, hm] at this
          omega
        rw [colsM_matMul_of_ne _ hxd, hcolsW]
  constructor
  · simp only [graphConvolutionCall]
    rw [List.length_map]
    cases hbias : cfg.bias with
    | none => simp [addBias, length_matMul]
    | some bv => simp [addBias, length_matMul]
  · intro r hr
    simp only [graphConvolutionCall, List.mem_map] at hr
    obtain ⟨r1, hr1, rfl⟩ := hr
    rw [List.length_map]
    cases hbias : cfg.bias with
    | none =>
        rw [hbias] at hr1
        simp only [addBias] at hr1
        rw [length_mem_matMul _ _ hr1, hpre]
    | some bv =>
        rw [hbias] at hr1
        simp only [addBias, List.mem_map] at hr1
        obtain ⟨r2, hr2, rfl⟩ := hr1
        rw [List.length_zipWith, length_mem_matMul _ _ hr2, hpre,
          hb bv hbias]
        omega

/-- C5 witness: support [[1],[2]] (two rows), weights [[3]], input [[5]],
mask [[true]]: the output has 2 rows; row 0 has output_dim = 1 entries. -/
theorem graphConvolution_output_shape_witness :
    (graphConvolutionCall ⟨[[3]], none, [[1], [2]], false⟩ id [[true]] 1
      [[5]]).length = 2 :=
  by
  have h := graphConvolution_output_shape ⟨[[3]], none, [[1], [2]], false⟩ id
    [[true]] 1 [[5]] 1 1 1 (by decide) (by decide) (by decide) (by decide)
    (by decide) (by decide) (by decide) (by decide)
    (fun bv hbv => Option.noConfusion hbv)
  simpa using h.1

/-! ## C7: sparse_dropout rescale and keep_prob = 1 no-op -/

/-- C7: every entry that sparse_dropout keeps is an input entry rescaled by
1/keep_prob, and with keep_prob = 1 the op is a no-op: floor(1 + u) = 1 for
every uniform sample u in [0,1), so every nonzero entry is retained, and the
rescale factor is 1, so the output equals the input sparse tensor. -/
theorem sparse_dropout_spec (x : List SparseEntry) (q : ℚ) (us : List ℚ)
    (hlen : us.length = x.length) (hus : ∀ u ∈ us, 0 ≤ u ∧ u < 1) :
    (∀ e ∈ sparse_dropout x q us, ∃ iv ∈ x, e = (iv.1, iv.2 * (1 / q))) ∧
    (q = 1 → sparse_dropout x q us = x) := by
  constructor
  · intro e he
    simp only [sparse_dropout, List.mem_map] at he
    obtain ⟨p, hp, rfl⟩ := he
    have hpz : p ∈ x.zip us := List.mem_of_mem_filter hp
    obtain ⟨a, b⟩ := p
    exact ⟨a, (List.of_mem_zip hpz).1, rfl⟩
  · intro hq
    subst hq
    simp only [sparse_dropout]
    have hfilter : ∀ a ∈ x.zip us, (decide (⌊(1:ℚ) + a.2⌋ ≠ 0)) = true := by
      intro a ha
      have hu := hus a.2 (List.of_mem_zip ha).2
      have hfl : ⌊(1:ℚ) + a.2⌋ = 1 := by
        rw [Int.floor_eq_iff]
        constructor
        · push_cast
          linarith [hu.1]
        · push_cast
          linarith [hu.2]
      simp [hfl]
    rw [List.filter_eq_self.mpr hfilter]
    have hfun : ∀ a ∈ x.zip us,
        (a.1.1, a.1.2 * (1 / (1:ℚ))) = Prod.fst a := by
      intro a _
      simp
    rw [List.map_congr_left hfun]
    exact List.map_fst_zip x us (le_of_eq hlen.symm)

/-- C7 witness: with keep_prob = 1 and uniform samples [0, 1/2], the sparse
tensor [((0,0),5), ((1,2),7)] passes through unchanged. -/
theorem sparse_dropout_spec_witness :
    sparse_dropout [((0, 0), 5), ((1, 2), 7)] 1 [0, 1/2] =
      [((0, 0), 5), ((1, 2), 7)] :=
  (sparse_dropout_spec [((0, 0), 5), ((1, 2), 7)] 1 [0, 1/2] rfl
    (by
      intro u hu
      simp only [List.mem_cons, List.not_mem_nil, or_false] at hu
      rcases hu with rfl | rfl <;> norm_num)).2 rfl

/-! ## C8: sparse and dense matmul agree on the same logical matrix -/

theorem densifyE_cons (e : SparseEntry) (tl : List SparseEntry) (i k : ℕ) :
    densifyE (e :: tl) i k =
      (if e.1 = (i, k) then e.2 else 0) + densifyE tl i k := by
  simp [densifyE]

theorem stdmVal_cons (e : SparseEntry) (tl : List SparseEntry)
    (y : List (List ℚ)) (i j : ℕ) :
    stdmVal (e :: tl) y i j =
      (if e.1.1 = i then e.2 * (y.getD e.1.2 []).getD j 0 else 0) +
        stdmVal tl y i j := by
  simp [stdmVal]

theorem dotCol_map_range (f : ℕ → ℚ) (c : ℕ) (y : List (List ℚ)) (j : ℕ) :
    dotCol ((List.range c).map f) y j =
      ∑ k ∈ Finset.range c, f k * (y.getD k []).getD j 0 := by
  rw [dotCol, List.length_map, List.length_range, ← listSum_range]
  apply congrArg List.sum
  apply List.map_congr_left
  intro k hk
  have hk' : k < c := List.mem_range.mp hk
  rw [List.getD_eq_getElem _ _ (by simpa using hk'), List.getElem_map,
    List.getElem_range]

theorem stdm_eq_densify (es : List SparseEntry) (c : ℕ) (y : List (List ℚ))
    (hc : ∀ e ∈ es, e.1.2 < c) (i j : ℕ) :
    ∑ k ∈ Finset.range c, densifyE es i k * (y.getD k []).getD j 0 =
      stdmVal es y i j := by
  induction es with
  | nil => simp [densifyE, stdmVal]
  | cons e tl ih =>
      have he : e.1.2 ∈ Finset.range c :=
        Finset.mem_range.mpr (hc e (List.mem_cons_self _ _))
      have htl : ∀ a ∈ tl, a.1.2 < c := fun a ha => hc a (List.mem_cons_of_mem _ ha)
      simp only [densifyE_cons, stdmVal_cons, add_mul]
      rw [Finset.sum_add_distrib, ih htl]
      congr 1
      by_cases hi : e.1.1 = i
      · have hcond : ∀ k, e.1 = (i, k) ↔ e.1.2 = k := by
          intro k
          constructor
          · intro h
            rw [h]
          · intro h
            have hfst : e.1 = (e.1.1, e.1.2) := rfl
            rw [hfst, hi, h]
        simp only [hcond, ite_mul, zero_mul]
        rw [Finset.sum_ite_eq (Finset.range c) e.1.2
          (fun k => e.2 * (y.getD k []).getD j 0), if_pos he, if_pos hi]
      · have hcond : ∀ k, ¬ (e.1 = (i, k)) :=
          fun k h => hi (congrArg Prod.fst h)
        simp [hcond, hi]

/-- C8: the sparse-times-dense product of a sparse matrix with a dense one
equals the dense-times-dense product of its densification with the same
matrix: both branches of dot compute the same logical matrix product
(entries stored in bounds of the declared c columns). -/
theorem dot_sparse_dense_agree (es : List SparseEntry) (r c : ℕ)
    (y : List (List ℚ)) (hc : ∀ e ∈ es, e.1.2 < c) :
    dot (.sparse es r c) y true = dot (.dense (densify es r c)) y false := by
  simp only [dot]
  apply congrArg some
  simp only [sparse_tensor_dense_matmul, matMul, densify, List.map_map]
  apply List.map_congr_left
  intro i hi
  simp only [Function.comp_apply]
  apply List.map_congr_left
  intro j hj
  rw [dotCol_map_range]
  exact (stdm_eq_densify es c y hc i j).symm

/-- C8 witness: the 2-by-2 sparse matrix with entries 2 at (0,0) and 3 at
(1,1), multiplied with [[1,2],[3,4]], agrees between the two dot variants. -/
theorem dot_sparse_dense_agree_witness :
    dot (.sparse [((0, 0), 2), ((1, 1), 3)] 2 2) [[1, 2], [3, 4]] true =
      dot (.dense (densify [((0, 0), 2), ((1, 1), 3)] 2 2)) [[1, 2], [3, 4]]
        false :=
  dot_sparse_dense_agree [((0, 0), 2), ((1, 1), 3)] 2 2 [[1, 2], [3, 4]]
    (by decide)

/-! ## C9: unknown constructor keywords fail with an error naming the key -/

/-- C9: whenever any keyword argument key outside the allowed set (name,
logging) is passed to a layer constructor, Layer.__init__ fails immediately
with the assertion error naming an offending key (the first such key in
argument order), and no layer object is produced. -/
theorem layer_init_invalid_kwarg (cls : String) (kwargs : KwArgs)
    (st : UidState) (k : String) (v : KwVal)
    (hk : (k, v) ∈ kwargs) (hinv : k ∉ allowed_kwargs) :
    ∃ k2, k2 ∉ allowed_kwargs ∧
      layer_init cls kwargs st = .error ("Invalid keyword argument: " ++ k2) := by
  have hex : ∃ p ∈ kwargs, ¬ (p.1 ∈ allowed_kwargs) := ⟨(k, v), hk, hinv⟩
  have hsome : (kwargs.find? (fun p => ¬ (p.1 ∈ allowed_kwargs))).isSome := by
    rw [List.find?_isSome]
    obtain ⟨p, hp, hnp⟩ := hex
    exact ⟨p, hp, by simpa using hnp⟩
  obtain ⟨p, hfind⟩ := Option.isSome_iff_exists.mp hsome
  have hnp : ¬ (p.1 ∈ allowed_kwargs) := by
    have := List.find?_some hfind
    simpa using this
  refine ⟨p.1, hnp, ?_⟩
  rw [layer_init, hfind]

/-- C9 witness: passing the unknown key kernel_init fails with the assertion
message naming an invalid key, for the concrete call. -/
theorem layer_init_invalid_kwarg_witness :
    ∃ k2, k2 ∉ allowed_kwargs ∧
      layer_init "GraphConvolution" [("kernel_init", KwVal.b true)] emptyUids =
        .error ("Invalid keyword argument: " ++ k2) :=
  layer_init_invalid_kwarg "GraphConvolution" [("kernel_init", KwVal.b true)]
    emptyUids "kernel_init" (KwVal.b true) (by decide) (by decide)

/-! ## C10: the unique-namer counter and default names -/

/-- Helper: after n calls for a tag starting from the empty dictionary, the
stored counter for that tag is n. -/
theorem uidStateAfter_self (tag : String) (n : ℕ) :
    uidStateAfter tag emptyUids n tag = n := by
  induction n with
  | zero => rfl
  | succ n ih =>
      rw [uidStateAfter, get_layer_uid]
      by_cases h0 : uidStateAfter tag emptyUids n tag = 0
      · rw [if_pos h0]
        show (if tag = tag then 1 else uidStateAfter tag emptyUids n tag) = n + 1
        rw [if_pos rfl]
        omega
      · rw [if_neg h0]
        show (if tag = tag then uidStateAfter tag emptyUids n tag + 1
          else uidStateAfter tag emptyUids n tag) = n + 1
        rw [if_pos rfl, ih]

/-- C10: successive get_layer_uid calls for a tag, starting from the empty
process-wide dictionary, return 1, 2, 3, ... (call n+1 returns n+1, so the
values are strictly increasing from 1); a call for one tag leaves every other
tag's counter untouched (the counter is per-tag); and a layer constructed
without an explicit name kwarg is named lowercased-class ++ underscore ++ the
value returned by get_layer_uid for that tag. -/
theorem layer_uid_fresh_names :
    (∀ tag n, uidReturned tag emptyUids n = n + 1) ∧
    (∀ tag t st, t ≠ tag → (get_layer_uid tag st).2 t = st t) ∧
    (∀ cls kwargs st obj st2, kwGet kwargs "name" = none →
      layer_init cls kwargs st = .ok (obj, st2) →
      obj.name = cls.toLower ++ "_" ++
        toString ((get_layer_uid cls.toLower st).1)) := by
  refine ⟨?_, ?_, ?_⟩
  · intro tag n
    have hself := uidStateAfter_self tag n
    rw [uidReturned, get_layer_uid]
    by_cases h0 : uidStateAfter tag emptyUids n tag = 0
    · rw [if_pos h0]
      show (1 : ℕ) = n + 1
      omega
    · rw [if_neg h0]
      show uidStateAfter tag emptyUids n tag + 1 = n + 1
      omega
  · intro tag t st ht
    rw [get_layer_uid]
    by_cases h0 : st tag = 0
    · rw [if_pos h0]
      simp only [if_neg ht]
    · rw [if_neg h0]
      simp only [if_neg ht]
  · intro cls kwargs st obj st2 hname hok
    rcases hfind : kwargs.find? (fun p => ¬ (p.1 ∈ allowed_kwargs)) with _ | p
    · rw [layer_init, hfind, hname] at hok
      simp only [Except.ok.injEq, Prod.mk.injEq] at hok
      rw [← hok.1]
    · rw [layer_init, hfind] at hok
      exact Except.noConfusion hok

/-- C10 witness: from the empty dictionary the first two calls for the tag
gruconv return 1 then 2, a call for tag a does not touch tag b, and
constructing a layer of class Dense with no kwargs gives it the default name
built from the fresh uid for its lowercased class tag. -/
theorem layer_uid_fresh_names_witness :
    uidReturned "gruconv" emptyUids 0 = 1 ∧
    uidReturned "gruconv" emptyUids 1 = 2 ∧
    (get_layer_uid "a" emptyUids).2 "b" = emptyUids "b" ∧
    (LayerObj.mk ("Dense".toLower ++ "_" ++
        toString ((get_layer_uid "Dense".toLower emptyUids).1)) false).name =
      "Dense".toLower ++ "_" ++
        toString ((get_layer_uid "Dense".toLower emptyUids).1) :=
  ⟨layer_uid_fresh_names.1 "gruconv" 0,
    layer_uid_fresh_names.1 "gruconv" 1,
    layer_uid_fresh_names.2.1 "a" "b" emptyUids (by decide),
    layer_uid_fresh_names.2.2 "Dense" [] emptyUids _
      (get_layer_uid "Dense".toLower emptyUids).2 rfl rfl⟩

end QuestNet
